import Mathlib

set_option linter.unusedVariables false

/-! Shallow embedding of the arbores snapshot tool (src/treecompare.py, the
final revision that the specification designates as the representative
baseline): the skip-pattern matcher `get_skip_checker`, the `Scanner` that
streams a directory tree as a JSON document, and the `Comparer` that walks
two parsed snapshot documents and reports discrepancies. -/

/-- A parsed JSON-like value as produced by `json.load`: objects, integers,
strings, booleans, arrays and null.  Objects are association lists in
insertion order; a parsed document has unique keys.  (Numbers with a
fractional part are the one JSON kind not modelled.)  Python treats `bool`
as a subtype of `int`, so the comparer's `isinstance(x, int)` tests are
true for booleans; this is modelled by `isIntLike` below. -/
inductive JValue where
  | obj  : List (String × JValue) → JValue
  | int  : Int → JValue
  | str  : String → JValue
  | bool : Bool → JValue
  | arr  : List JValue → JValue
  | null : JValue

abbrev Entries := List (String × JValue)

/-- Python dict lookup `d[k]` / membership `k in d` (parsed JSON objects
have unique keys, so first match is the match). -/
def lookupKey (k : String) : Entries → Option JValue
  | [] => none
  | (k₁, v) :: rest => if k₁ = k then some v else lookupKey k rest

/-- The key list `d.keys()` of an object. -/
def keysOf (l : Entries) : List String := l.map Prod.fst

/-- `Comparer._item_type`: dict ⇒ "dir", int ⇒ "file" (booleans are ints in
Python), str ⇒ the string itself, anything else ⇒ `raise ValueError`. -/
def itemType : JValue → Except Unit String
  | JValue.obj _ => Except.ok ("dir")
  | JValue.int _ => Except.ok ("file")
  | JValue.bool _ => Except.ok ("file")
  | JValue.str s => Except.ok s
  | JValue.arr _ => Except.error ()
  | JValue.null => Except.error ()

/-- The total type label, agreeing with `itemType` on values on which the
latter does not raise. -/
def typeLabel : JValue → String
  | JValue.obj _ => "dir"
  | JValue.int _ => "file"
  | JValue.bool _ => "file"
  | JValue.str s => s
  | JValue.arr _ => ""
  | JValue.null => ""

/-- `isinstance(x, int)` (true for Python booleans as well). -/
def isIntLike : JValue → Bool
  | JValue.int _ => true
  | JValue.bool _ => true
  | _ => false

/-- The integer value used by `a_k != b_k` on int-like values
(`True == 1`, `False == 0` in Python). -/
def intVal : JValue → Int
  | JValue.int n => n
  | JValue.bool b => if b then 1 else 0
  | _ => 0

/-- Python `f-string` rendering of an int-like value (`f'{a_k}b'` without
the trailing letter): decimal for ints, `True`/`False` for booleans. -/
def pyIntStr : JValue → String
  | JValue.int n => toString n
  | JValue.bool b => if b then "True" else "False"
  | _ => ""

mutual

/-- Well-formed snapshot values: only objects, integers and strings occur,
i.e. the value kinds the snapshot format defines. -/
def wfv : JValue → Bool
  | JValue.obj l => wfEntries l
  | JValue.int _ => true
  | JValue.str _ => true
  | _ => false

/-- Well-formedness of an object's entry list (see `wfv`). -/
def wfEntries : Entries → Bool
  | [] => true
  | (_, v) :: rest => wfv v && wfEntries rest

end

mutual

/-- Structural size of a value, used as recursion fuel for the comparer. -/
def vsize : JValue → Nat
  | JValue.obj l => 1 + esize l
  | JValue.arr l => 1 + asize l
  | _ => 1

/-- Structural size of an object's entry list. -/
def esize : Entries → Nat
  | [] => 1
  | (_, v) :: rest => 1 + vsize v + esize rest

/-- Structural size of an array's element list. -/
def asize : List JValue → Nat
  | [] => 1
  | v :: rest => 1 + vsize v + asize rest

end

/-- Is the first char list a prefix of the second? -/
def listIsPre : List Char → List Char → Bool
  | [], _ => true
  | _ :: _, [] => false
  | c :: cs, d :: ds => c == d && listIsPre cs ds

/-- `s.startswith(p)` on Python strings. -/
def strStarts (s p : String) : Bool := listIsPre p.data s.data

/-- `s.endswith(p)` on Python strings. -/
def strEnds (s p : String) : Bool := listIsPre p.data.reverse s.data.reverse

/-- Lexicographic comparison of char lists by code point, the order Python
string comparison (and hence `sorted`) uses. -/
def leChars : List Char → List Char → Bool
  | [], _ => true
  | _ :: _, [] => false
  | a :: as, b :: bs => if a = b then leChars as bs else Nat.blt a.toNat b.toNat

/-- Python `a <= b` on strings: lexicographic by code point. -/
def strLe (a b : String) : Bool := leChars a.data b.data

/-- `os.path.join(a, b)` for POSIX paths, as used for `full_path` in the
comparer and for `DirEntry.path` in the scanner. -/
def pathJoin (a b : String) : String :=
  if strStarts b ("/") then b
  else if a = "" then a ++ b
  else if strEnds a ("/") then a ++ b
  else a ++ "/" ++ b

/-- One reported discrepancy: the arguments of `Comparer._report`. -/
structure DiffRecord where
  path : String
  left : String
  right : String
deriving DecidableEq, Repr

/-- `sorted(set(a.keys()) | set(b.keys()))`: the deduplicated union of the
two key sets in ascending lexicographic (`strLe`) order (on duplicate-free
input every correct sort yields the same list, so insertion sort stands in
for Python's sort). -/
def sortedUnion (a b : Entries) : List String :=
  List.insertionSort (fun s t => strLe s t = true) ((keysOf a ++ keysOf b).dedup)

/-- The per-key body of the loop of `Comparer.compare`, for one key `k` of
the sorted union of the key sets: report a one-sided entry, skip a
skip-matched path present on both sides, recurse (through `recur`) on a
directory pair, size-compare an int pair, and type-compare every other
combination.  The returned list is this key's contribution to the report;
errors model the `ValueError` raised by `_item_type` on unsupported value
kinds (and the `KeyError` that following `a[k]` would raise for a key in
neither dict, which cannot happen for keys drawn from the union). -/
def stepKey (skip : String → Bool)
    (recur : String → Entries → Entries → List String → Except Unit (List DiffRecord))
    (pre : String) (a b : Entries) (k : String) : Except Unit (List DiffRecord) :=
  match lookupKey k a, lookupKey k b with
  | none, none => Except.error ()
  | some va, none =>
    (itemType va).map (fun t => [(⟨pathJoin pre k, t, "n/a"⟩ : DiffRecord)])
  | none, some vb =>
    (itemType vb).map (fun t => [(⟨pathJoin pre k, "n/a", t⟩ : DiffRecord)])
  | some (JValue.obj ea), some (JValue.obj eb) =>
    if skip (pathJoin pre k) then Except.ok []
    else recur (pathJoin pre k) ea eb (sortedUnion ea eb)
  | some va, some vb =>
    if skip (pathJoin pre k) then Except.ok []
    else if isIntLike va && isIntLike vb then
      Except.ok
        (if intVal va ≠ intVal vb then
          [(⟨pathJoin pre k, pyIntStr va ++ "b", pyIntStr vb ++ "b"⟩ : DiffRecord)]
        else [])
    else
      (itemType va).bind (fun ta => (itemType vb).map (fun tb =>
        if ta ≠ tb then [(⟨pathJoin pre k, ta, tb⟩ : DiffRecord)] else []))

/-- Run the per-key step over the key list in order, collecting the
per-key report blocks; the first raised error aborts the whole loop, as an
uncaught Python exception would. -/
def stepsRun (f : String → Except Unit (List DiffRecord)) :
    List String → Except Unit (List (List DiffRecord))
  | [] => Except.ok []
  | k :: ks =>
    match f k with
    | Except.error e => Except.error e
    | Except.ok s =>
      match stepsRun f ks with
      | Except.error e => Except.error e
      | Except.ok vs => Except.ok (s :: vs)

/-- Concatenate the collected blocks (or propagate the error). -/
def flattenResult : Except Unit (List (List DiffRecord)) → Except Unit (List DiffRecord)
  | Except.error e => Except.error e
  | Except.ok vs => Except.ok vs.flatten

/-- `Comparer.compare` with an explicit structural-recursion fuel, consumed
only when descending into a directory pair.  The recursion of the Python
code terminates on every (finite) tree pair; `Comparer.compare` below
supplies a fuel that provably dominates the descent depth, so the fuel is
never exhausted there. -/
def compareF (skip : String → Bool) :
    Nat → String → Entries → Entries → List String → Except Unit (List DiffRecord)
  | 0, _, _, _, _ => Except.error ()
  | Nat.succ fuel, pre, a, b, keys =>
    flattenResult (stepsRun (stepKey skip (compareF skip fuel) pre a b) keys)

namespace Comparer

/-- `Comparer.compare(a, b, prefix)`: iterate the sorted union of the key
sets, concatenating the per-key reports (`stepKey`). -/
def compare (skip : String → Bool) (a b : Entries) (pre : String) :
    Except Unit (List DiffRecord) :=
  compareF skip (esize a + esize b) pre a b (sortedUnion a b)

end Comparer

/-- `compare(tree_a, tree_b)` on two freshly parsed documents (non-relative
mode): the arguments must be dicts, since `compare` immediately calls
`a.keys()` (an `AttributeError` on anything else). -/
def compareTop (skip : String → Bool) : JValue → JValue → Except Unit (List DiffRecord)
  | JValue.obj a, JValue.obj b => Comparer.compare skip a b ("")
  | _, _ => Except.error ()

/-- `Comparer.main` after loading the two documents: with `--relative`, the
destructuring assignment `k, = tree.keys()` unwraps the single top-level
entry of each document and raises `ValueError` unless there is exactly one
key; then `compare` runs on the unwrapped values. -/
def compareMain (relative : Bool) (skip : String → Bool) (ta tb : JValue) :
    Except Unit (List DiffRecord) :=
  if relative then
    match ta with
    | JValue.obj [(_, va)] =>
      match tb with
      | JValue.obj [(_, vb)] => compareTop skip va vb
      | _ => Except.error ()
    | _ => Except.error ()
  else compareTop skip ta tb

/-- ASCII lower-casing (the case folding relevant to this development's
inputs; `re.IGNORECASE` on Python `str` folds full Unicode). -/
def toLowerC (c : Char) : Char :=
  if 65 ≤ c.toNat ∧ c.toNat ≤ 90 then Char.ofNat (c.toNat + 32) else c

/-- Swap ASCII case, for case-insensitive character-class membership. -/
def swapCaseC (c : Char) : Char :=
  if 65 ≤ c.toNat ∧ c.toNat ≤ 90 then Char.ofNat (c.toNat + 32)
  else if 97 ≤ c.toNat ∧ c.toNat ≤ 122 then Char.ofNat (c.toNat - 32)
  else c

/-- Case-insensitive character equality (`re.IGNORECASE` on a literal). -/
def charFoldEq (a b : Char) : Bool := toLowerC a == toLowerC b

/-- One member of a translated `[...]` character class: a single character
or a code-point range `lo-hi` (an empty range matches nothing, which is
what CPython's empty-range removal amounts to). -/
inductive ClassItem where
  | single (c : Char)
  | range (lo hi : Char)
deriving DecidableEq, Repr

/-- One token of a translated pattern, mirroring what `fnmatch.translate`
emits into the regex: `.*` for `*`, `.` for `?`, a character class for a
well-bracketed `[...]`, and a (case-insensitively matched) literal
character otherwise. -/
inductive GlobTok where
  | star
  | anyChar
  | cls (negated : Bool) (items : List ClassItem)
  | lit (c : Char)
deriving DecidableEq, Repr

/-- Scan for the next unescaped `]`; none means the bracket never closes
(and `fnmatch.translate` then treats the `[` as a literal). -/
def splitAtRBracket : List Char → Option (List Char × List Char)
  | [] => none
  | ']' :: r => some ([], r)
  | c :: r =>
    match splitAtRBracket r with
    | none => none
    | some (m, rest) => some (c :: m, rest)

/-- The `[`-scan of `fnmatch.translate`: a leading `!` and a `]` right
after it (or a leading `]`) belong to the class body; then everything up
to the next `]`.  Returns the class body and the remaining pattern. -/
def scanClass (cs : List Char) : Option (List Char × List Char) :=
  match cs with
  | '!' :: ']' :: r₂ =>
    match splitAtRBracket r₂ with
    | none => none
    | some (m, rest) => some ('!' :: ']' :: m, rest)
  | '!' :: r₁ =>
    match splitAtRBracket r₁ with
    | none => none
    | some (m, rest) => some ('!' :: m, rest)
  | ']' :: r₁ =>
    match splitAtRBracket r₁ with
    | none => none
    | some (m, rest) => some (']' :: m, rest)
  | _ => splitAtRBracket cs

/-- Parse a class body into members: `a-b` becomes a range (CPython's
chunking around `-` produces the same ranges and literals), anything else
a single character; a `-` without both neighbours stays literal. -/
def parseItems : List Char → List ClassItem
  | c₁ :: '-' :: c₂ :: rest => ClassItem.range c₁ c₂ :: parseItems rest
  | c :: rest => ClassItem.single c :: parseItems rest
  | [] => []

/-- Tokenize a pattern the way `fnmatch.translate` walks it, with a fuel
argument for structural recursion (`tokenize` supplies the pattern length,
which always suffices since every step consumes at least one character).
Consecutive `*` are kept (CPython collapses them; the match semantics is
identical).  A class body of exactly `!` is translated to `.` (matches any
one character), just as CPython does. -/
def tokenizeF : Nat → List Char → List GlobTok
  | 0, _ => []
  | _, [] => []
  | Nat.succ fuel, c :: rest =>
    if c = '*' then GlobTok.star :: tokenizeF fuel rest
    else if c = '?' then GlobTok.anyChar :: tokenizeF fuel rest
    else if c = '[' then
      match scanClass rest with
      | none => GlobTok.lit '[' :: tokenizeF fuel rest
      | some (stuff, rest') =>
        (match stuff with
         | [] => GlobTok.cls false []
         | ['!'] => GlobTok.anyChar
         | '!' :: s => GlobTok.cls true (parseItems s)
         | s => GlobTok.cls false (parseItems s)) :: tokenizeF fuel rest'
    else GlobTok.lit c :: tokenizeF fuel rest

/-- Tokenize a raw (already normalized) pattern. -/
def tokenize (cs : List Char) : List GlobTok := tokenizeF cs.length cs

/-- Raw membership of a character in a class body (no case folding). -/
def inItems (c : Char) : List ClassItem → Bool
  | [] => false
  | ClassItem.single x :: rest => c == x || inItems c rest
  | ClassItem.range lo hi :: rest =>
    (Nat.ble lo.toNat c.toNat && Nat.ble c.toNat hi.toNat) || inItems c rest

/-- Case-insensitive class matching: the character or its case swap is a
member; negated classes invert the result. -/
def classMatch (c : Char) (neg : Bool) (items : List ClassItem) : Bool :=
  let mem := inItems c items || inItems (swapCaseC c) items
  if neg then !mem else mem

/-- Does a token list match a whole char list?  This is `re.match` of the
translated regex (which ends in `\Z` and sets `(?s)`, so it is a full
match and `.` crosses newlines): `star` matches any run of characters
including `/`, `anyChar` exactly one character, and literals and classes
one character case-insensitively. -/
def globTokens : List GlobTok → List Char → Bool
  | [], cs => cs.isEmpty
  | GlobTok.star :: ts, cs => (cs.tails).any (globTokens ts)
  | GlobTok.anyChar :: _, [] => false
  | GlobTok.anyChar :: ts, _ :: cs => globTokens ts cs
  | GlobTok.lit _ :: _, [] => false
  | GlobTok.lit l :: ts, c :: cs => charFoldEq l c && globTokens ts cs
  | GlobTok.cls _ _ :: _, [] => false
  | GlobTok.cls neg items :: ts, c :: cs => classMatch c neg items && globTokens ts cs

/-- Does one compiled pattern match a path (full-string, case-insensitive)? -/
def patMatch (p path : String) : Bool := globTokens (tokenize p.data) path.data

/-- The normalization in `get_skip_checker`: a pattern whose first
character is not `*`, `?` or `/` (in particular the empty pattern) is
prefixed with `*/`. -/
def normalizePattern (p : String) : String :=
  match p.data with
  | '*' :: _ => p
  | '?' :: _ => p
  | '/' :: _ => p
  | _ => "*/" ++ p

/-- `get_skip_checker(skip_list)` applied to a path: some pattern of the
(deduplicated) list, once normalized and compiled, matches the path. -/
def get_skip_checker (skipList : List String) (path : String) : Bool :=
  (skipList.dedup).any (fun p => patMatch (normalizePattern p) path)

/-- One token of the glob language as the specification's words define it:
only `*` and `?` are special, every other character is literal. -/
inductive SpecTok where
  | star
  | anyChar
  | lit (c : Char)
deriving DecidableEq, Repr

/-- Modelled from the spec: tokenizer for the specification's glob
language, in which only `*` and `?` are wildcards and every other
character is literal. -/
def specTokenize : List Char → List SpecTok
  | [] => []
  | c :: r =>
    (if c = '*' then SpecTok.star
     else if c = '?' then SpecTok.anyChar
     else SpecTok.lit c) :: specTokenize r

/-- The inclusion of the specification's glob tokens into the
implementation's. -/
def ofSpecTok : SpecTok → GlobTok
  | SpecTok.star => GlobTok.star
  | SpecTok.anyChar => GlobTok.anyChar
  | SpecTok.lit c => GlobTok.lit c

/-- Modelled from the spec: full-string case-insensitive matching for the
specification's glob language (`*` any run including `/`, `?` exactly one
character, all else literal). -/
def specMatchToks : List SpecTok → List Char → Bool
  | [], cs => cs.isEmpty
  | SpecTok.star :: ts, cs => (cs.tails).any (specMatchToks ts)
  | SpecTok.anyChar :: _, [] => false
  | SpecTok.anyChar :: ts, _ :: cs => specMatchToks ts cs
  | SpecTok.lit _ :: _, [] => false
  | SpecTok.lit l :: ts, c :: cs => charFoldEq l c && specMatchToks ts cs

/-- Modelled from the spec: the matcher of claim C7 — some pattern of the
list, after the `*/` normalization, matches the whole path in the
specification's glob language. -/
def specMatcher (pats : List String) (path : String) : Bool :=
  pats.any (fun p => specMatchToks (specTokenize (normalizePattern p).data) path.data)

/-- One filesystem node as `Scanner.scan` classifies directory entries:
`entry.is_symlink()` first, then `is_file()`, then `is_dir()` (a directory
carries a readable flag — listing an unreadable one raises
`PermissionError`); everything else (devices, sockets, FIFOs, ...) is
`other`. -/
inductive FSNode where
  | file (size : Nat)
  | dir (readable : Bool) (entries : List (String × FSNode))
  | symlink
  | other

/-- Hexadecimal digit (lowercase), for `\uXXXX` escapes. -/
def hexDigit (n : Nat) : Char :=
  if n < 10 then Char.ofNat (48 + n) else Char.ofNat (87 + n)

/-- Four-digit lowercase hex rendering of a code unit. -/
def hex4 (n : Nat) : String :=
  String.mk [hexDigit (n / 4096 % 16), hexDigit (n / 256 % 16),
             hexDigit (n / 16 % 16), hexDigit (n % 16)]

/-- Escape one character the way `json.encoder.encode_basestring_ascii`
does: the short escapes for backslash, quote and the usual control
characters; `\uXXXX` (with surrogate pairs beyond the BMP) for every other
character outside printable ASCII. -/
def escapeChar (c : Char) : String :=
  if c = '"' then "\\\""
  else if c = '\\' then "\\\\"
  else if c = '\n' then "\\n"
  else if c = '\r' then "\\r"
  else if c = '\t' then "\\t"
  else if c.toNat = 8 then "\\b"
  else if c.toNat = 12 then "\\f"
  else if c.toNat < 32 ∨ 126 < c.toNat then
    if c.toNat < 65536 then "\\u" ++ hex4 c.toNat
    else
      "\\u" ++ hex4 (55296 + (c.toNat - 65536) / 1024) ++
      "\\u" ++ hex4 (56320 + (c.toNat - 65536) % 1024)
  else String.mk [c]

/-- `str_encode` = `json.encoder.encode_basestring_ascii`: a quoted,
ASCII-safe JSON string literal. -/
def jsonStr (s : String) : String :=
  "\"" ++ String.join (s.data.map escapeChar) ++ "\""

/-- `max_depth is not None and max_depth <= 0`: the depth bound is active
and exhausted. -/
def depthDone : Option Int → Bool
  | none => false
  | some d => d ≤ 0

/-- `None if max_depth is None else max_depth - 1`. -/
def depthDec : Option Int → Option Int
  | none => none
  | some d => some (d - 1)

mutual

/-- Structural size of a filesystem node, recursion fuel for the scanner. -/
def fsize : FSNode → Nat
  | FSNode.dir _ l => 1 + flsize l
  | _ => 1

/-- Structural size of a directory listing. -/
def flsize : List (String × FSNode) → Nat
  | [] => 1
  | (_, e) :: rest => 1 + fsize e + flsize rest

end

/-- One iteration of the entry loop of `Scanner.scan`: the text passed to
`add_item` for this entry, or `none` when nothing is emitted (unsupported
entry kinds are only logged).  `entry.is_symlink()` is tested first, then
`is_file()`, then `is_dir()`; for a directory the depth bound is tested
before the skip checker, and descent (through `recur`, which receives the
subdirectory's readability, listing, path `os.path.join(dirPath, name)`,
prefix extended by the indent, and the decremented depth) happens only
when neither cuts it off. -/
def scanEntryStep (skip : String → Bool) (indent : String)
    (recur : Bool → List (String × FSNode) → String → String → Option Int → String)
    (dirPath pre : String) (md : Option Int) : String × FSNode → Option String
  | (n, FSNode.symlink) => some (jsonStr n ++ ":\"symlink\"")
  | (n, FSNode.file sz) => some (jsonStr n ++ ":" ++ toString sz)
  | (n, FSNode.dir r sub) =>
    if depthDone md then some (jsonStr n ++ ":\"unlisted dir\"")
    else if skip (pathJoin dirPath n) then some (jsonStr n ++ ":\"skipped dir\"")
    else some (jsonStr n ++ ":" ++
      recur r sub (pathJoin dirPath n) (pre ++ indent) (depthDec md))
  | (_, FSNode.other) => none

/-- Join the emitted items with the `add_item` separator logic: the first
emitted item gets no leading comma, later ones do; every emitted item is
preceded by a newline and the indentation prefix; `none` entries leave the
pending-joiner state untouched. -/
def joinItems (pre : String) : List (Option String) → Bool → String
  | [], _ => ""
  | some item :: rest, first =>
    (if first then "" else ",") ++ "\n" ++ pre ++ item ++ joinItems pre rest false
  | none :: rest, first => joinItems pre rest first

/-- `Scanner.scan` with an explicit structural-recursion fuel, consumed
only when descending into a subdirectory (`Scanner.scan` supplies a fuel
that provably dominates the descent depth, so it is never exhausted
there): an unreadable directory emits only the permission-error marker; a
readable one emits `{`, its entry items, `}`. -/
def scanF (skip : String → Bool) (indent : String) :
    Nat → Bool → List (String × FSNode) → String → String → Option Int → String
  | 0, _, _, _, _, _ => ""
  | Nat.succ fuel, readable, entries, dirPath, pre, md =>
    if readable then
      "\x7b" ++
        joinItems pre
          (entries.map (scanEntryStep skip indent (scanF skip indent fuel) dirPath pre md))
          true ++
      "\x7d"
    else "\"<permissionerror>\""

/-- `Scanner.scan(path, prefix, max_depth)` run on a directory whose
listing is `entries` (in discovery order) when `readable`, raising
`PermissionError` otherwise; returns the text written to the output sink.
`dirPath` is the scanned directory's path, `indent` is `self.indent`. -/
def Scanner.scan (skip : String → Bool) (indent : String) (readable : Bool)
    (entries : List (String × FSNode)) (dirPath pre : String) (md : Option Int) : String :=
  scanF skip indent (flsize entries) readable entries dirPath pre md

/-- `Scanner.main`: the whole document written for a scan of a root
directory (readable flag and listing given), with the root path as the
single top-level key; `prefix` starts empty, `indent` is the constructor
default, one space. -/
def Scanner.scanDoc (skip : String → Bool) (rootPath : String) (readable : Bool)
    (entries : List (String × FSNode)) (md : Option Int) : String :=
  "\x7b" ++ jsonStr rootPath ++ ":" ++
    Scanner.scan skip (" ") readable entries rootPath ("") md ++ "\x7d"

/-- The depth-exhausted rendering of one entry: like `scanEntryStep`, but
with every directory entry rendered as an `unlisted dir` marker — no
descent, no skip consultation, contents and readability ignored. -/
def shallowStep : String × FSNode → Option String
  | (n, FSNode.symlink) => some (jsonStr n ++ ":\"symlink\"")
  | (n, FSNode.file sz) => some (jsonStr n ++ ":" ++ toString sz)
  | (n, FSNode.dir _ _) => some (jsonStr n ++ ":\"unlisted dir\"")
  | (_, FSNode.other) => none

/-- Remove every entry with the given key from an object. -/
def removeKey (k : String) (l : Entries) : Entries :=
  l.filter (fun e => !(e.1 == k))

/-- A directory listing with no subdirectory entries. -/
def noDirEntries : List (String × FSNode) → Bool
  | [] => true
  | (_, FSNode.dir _ _) :: _ => false
  | _ :: rest => noDirEntries rest

/-! Lemmas: basic facts about lookup, well-formedness, sizes and the
sorted key union. -/

theorem esize_pos : ∀ l : Entries, 1 ≤ esize l
  | [] => by simp [esize]
  | (_, v) :: rest => by simp [esize]; omega

theorem lookupKey_isSome_iff {k : String} :
    ∀ {l : Entries}, (lookupKey k l).isSome = true ↔ k ∈ keysOf l := by
  intro l
  induction l with
  | nil => simp [lookupKey, keysOf]
  | cons hd tl ih =>
    obtain ⟨k₁, v₁⟩ := hd
    by_cases h : k₁ = k
    · subst h
      simp [lookupKey, keysOf]
    · have hred : lookupKey k ((k₁, v₁) :: tl) = lookupKey k tl := by
        simp [lookupKey, h]
      rw [hred, ih]
      have hk : keysOf ((k₁, v₁) :: tl) = k₁ :: keysOf tl := rfl
      rw [hk, List.mem_cons]
      constructor
      · exact fun hm => Or.inr hm
      · rintro (hk₂ | hm)
        · exact absurd hk₂.symm h
        · exact hm

theorem lookupKey_none_iff {k : String} {l : Entries} :
    lookupKey k l = none ↔ k ∉ keysOf l := by
  rw [← lookupKey_isSome_iff]
  cases lookupKey k l <;> simp

theorem wf_lookup {k : String} :
    ∀ {l : Entries} {v : JValue}, wfEntries l = true → lookupKey k l = some v →
      wfv v = true := by
  intro l
  induction l with
  | nil => intro v _ h; simp [lookupKey] at h
  | cons hd tl ih =>
    intro v hwf h
    obtain ⟨k₁, v₁⟩ := hd
    rw [wfEntries] at hwf
    simp at hwf
    by_cases hk : k₁ = k
    · simp [lookupKey, hk] at h
      subst h
      exact hwf.1
    · simp [lookupKey, hk] at h
      exact ih hwf.2 h

theorem itemType_of_wf {v : JValue} (h : wfv v = true) :
    itemType v = Except.ok (typeLabel v) := by
  cases v <;> simp [itemType, typeLabel] <;> simp [wfv] at h

theorem esize_lookup {k : String} :
    ∀ {l : Entries} {v : JValue}, lookupKey k l = some v → vsize v + 2 ≤ esize l := by
  intro l
  induction l with
  | nil => intro v h; simp [lookupKey] at h
  | cons hd tl ih =>
    intro v h
    obtain ⟨k₁, v₁⟩ := hd
    by_cases hk : k₁ = k
    · simp [lookupKey, hk] at h
      subst h
      have := esize_pos tl
      simp [esize]
      omega
    · simp [lookupKey, hk] at h
      have := ih h
      simp [esize]
      omega

theorem charToNat_inj {a b : Char} (h : a.toNat = b.toNat) : a = b := by
  cases a; cases b
  simp [Char.toNat] at h
  congr 1
  exact UInt32.ext h

theorem leChars_total : ∀ as bs : List Char, leChars as bs = true ∨ leChars bs as = true := by
  intro as
  induction as with
  | nil => intro bs; left; simp [leChars]
  | cons a as ih =>
    intro bs
    cases bs with
    | nil => right; simp [leChars]
    | cons b bs =>
      by_cases hab : a = b
      · subst hab
        simpa [leChars] using ih bs
      · have hn : a.toNat ≠ b.toNat := fun hc => hab (charToNat_inj hc)
        simp [leChars, hab, Ne.symm hab, Nat.blt_eq]
        omega

theorem leChars_trans : ∀ as bs cs : List Char,
    leChars as bs = true → leChars bs cs = true → leChars as cs = true := by
  intro as
  induction as with
  | nil => intro bs cs _ _; simp [leChars]
  | cons a as ih =>
    intro bs cs h₁ h₂
    cases bs with
    | nil => simp [leChars] at h₁
    | cons b bs =>
      cases cs with
      | nil => simp [leChars] at h₂
      | cons c cs =>
        by_cases hab : a = b <;> by_cases hbc : b = c
        · subst hab; subst hbc
          simp [leChars] at h₁ h₂ ⊢
          exact ih _ _ h₁ h₂
        · subst hab
          simp [leChars, hbc, Nat.blt_eq] at h₂ ⊢
          exact h₂
        · subst hbc
          simp [leChars, hab, Nat.blt_eq] at h₁ ⊢
          exact h₁
        · have h₁n : a.toNat < b.toNat := by
            simpa [leChars, hab, Nat.blt_eq] using h₁
          have h₂n : b.toNat < c.toNat := by
            simpa [leChars, hbc, Nat.blt_eq] using h₂
          have hac : a ≠ c := fun hc => by
            subst hc
            omega
          simp [leChars, hac, Nat.blt_eq]
          omega

theorem leChars_antisymm : ∀ as bs : List Char,
    leChars as bs = true → leChars bs as = true → as = bs := by
  intro as
  induction as with
  | nil => intro bs h₁ h₂; cases bs with
    | nil => rfl
    | cons b bs => simp [leChars] at h₂
  | cons a as ih =>
    intro bs h₁ h₂
    cases bs with
    | nil => simp [leChars] at h₁
    | cons b bs =>
      by_cases hab : a = b
      · subst hab
        simp [leChars] at h₁ h₂
        rw [ih _ h₁ h₂]
      · simp [leChars, hab, Ne.symm hab, Nat.blt_eq] at h₁ h₂
        omega

instance : IsTotal String (fun s t => strLe s t = true) :=
  ⟨fun a b => leChars_total a.data b.data⟩

instance : IsTrans String (fun s t => strLe s t = true) :=
  ⟨fun a b c => leChars_trans a.data b.data c.data⟩

instance : IsAntisymm String (fun s t => strLe s t = true) :=
  ⟨fun a b h₁ h₂ => by
    have hd := leChars_antisymm a.data b.data h₁ h₂
    cases a
    cases b
    exact congrArg String.mk hd⟩

theorem mem_sortedUnion {k : String} {a b : Entries} :
    k ∈ sortedUnion a b ↔ k ∈ keysOf a ∨ k ∈ keysOf b := by
  simp [sortedUnion, List.mem_insertionSort, List.mem_dedup]

theorem nodup_sortedUnion (a b : Entries) : (sortedUnion a b).Nodup :=
  ((List.perm_insertionSort _ _).nodup_iff).mpr (List.nodup_dedup _)

theorem sorted_sortedUnion (a b : Entries) :
    List.Sorted (fun s t => strLe s t = true) (sortedUnion a b) :=
  List.sorted_insertionSort _ _

/-! Lemmas: the comparer's fuel is irrelevant once it dominates the sizes,
so `Comparer.compare` is the (unique) fixpoint the Python recursion
computes. -/

theorem compareF_succ {skip : String → Bool} {fuel : Nat} {pre : String}
    {a b : Entries} {keys : List String} :
    compareF skip (Nat.succ fuel) pre a b keys =
      flattenResult (stepsRun (stepKey skip (compareF skip fuel) pre a b) keys) := rfl

theorem stepsRun_congr {f g : String → Except Unit (List DiffRecord)} :
    ∀ {keys : List String}, (∀ k ∈ keys, f k = g k) →
      stepsRun f keys = stepsRun g keys := by
  intro keys
  induction keys with
  | nil => intro _; rfl
  | cons k ks ih =>
    intro h
    have hk := h k (List.mem_cons_self _ _)
    have ht := ih (fun k' h' => h k' (List.mem_cons_of_mem _ h'))
    simp only [stepsRun, hk, ht]

theorem stepsRun_cons_ok {f : String → Except Unit (List DiffRecord)}
    {k : String} {ks : List String} {vs : List (List DiffRecord)}
    (h : stepsRun f (k :: ks) = Except.ok vs) :
    ∃ s vs', f k = Except.ok s ∧ stepsRun f ks = Except.ok vs' ∧ vs = s :: vs' := by
  rw [stepsRun] at h
  cases hf : f k with
  | error e => rw [hf] at h; simp at h
  | ok s =>
    rw [hf] at h
    cases hr : stepsRun f ks with
    | error e => rw [hr] at h; simp at h
    | ok vs' =>
      rw [hr] at h
      simp at h
      exact ⟨s, vs', rfl, rfl, h.symm⟩

theorem stepKey_congr {skip : String → Bool} {pre : String} {a b : Entries} {k : String}
    {r₁ r₂ : String → Entries → Entries → List String → Except Unit (List DiffRecord)}
    (h : ∀ ea eb, lookupKey k a = some (JValue.obj ea) →
      lookupKey k b = some (JValue.obj eb) →
      r₁ (pathJoin pre k) ea eb (sortedUnion ea eb) =
        r₂ (pathJoin pre k) ea eb (sortedUnion ea eb)) :
    stepKey skip r₁ pre a b k = stepKey skip r₂ pre a b k := by
  unfold stepKey
  cases hla : lookupKey k a with
  | none => cases hlb : lookupKey k b <;> rfl
  | some va =>
    cases hlb : lookupKey k b with
    | none => cases va <;> rfl
    | some vb =>
      cases va with
      | obj ea =>
        cases vb with
        | obj eb =>
          by_cases hs : skip (pathJoin pre k)
          · simp [hs]
          · simp [hs, h ea eb hla hlb]
        | int n => rfl
        | str s => rfl
        | bool x => rfl
        | arr l => rfl
        | null => rfl
      | int n => cases vb <;> rfl
      | str s => cases vb <;> rfl
      | bool x => cases vb <;> rfl
      | arr l => cases vb <;> rfl
      | null => cases vb <;> rfl

theorem compareF_fuel_eq {skip : String → Bool} : ∀ f₁ {f₂ : Nat} {a b : Entries}
    {pre : String} {keys : List String},
    esize a + esize b ≤ f₁ → esize a + esize b ≤ f₂ →
    compareF skip f₁ pre a b keys = compareF skip f₂ pre a b keys := by
  intro f₁
  induction f₁ with
  | zero =>
    intro f₂ a b pre keys h₁ h₂
    exact absurd h₁ (by have := esize_pos a; have := esize_pos b; omega)
  | succ n ih =>
    intro f₂ a b pre keys h₁ h₂
    cases f₂ with
    | zero => exact absurd h₂ (by have := esize_pos a; have := esize_pos b; omega)
    | succ m =>
      rw [compareF_succ, compareF_succ]
      have hpt : ∀ k ∈ keys, stepKey skip (compareF skip n) pre a b k
               = stepKey skip (compareF skip m) pre a b k := by
        intro k _
        apply stepKey_congr
        intro ea eb hla hlb
        have ha := esize_lookup hla
        have hb := esize_lookup hlb
        have ha' : esize ea + 3 ≤ esize a := by
          simp [vsize] at ha
          omega
        have hb' : esize eb + 3 ≤ esize b := by
          simp [vsize] at hb
          omega
        exact ih (by omega) (by omega)
      rw [stepsRun_congr hpt]

theorem compare_eq_compareF {skip : String → Bool} {a b : Entries} {pre : String}
    {f : Nat} (hf : esize a + esize b ≤ f) :
    Comparer.compare skip a b pre = compareF skip f pre a b (sortedUnion a b) :=
  compareF_fuel_eq _ (Nat.le_refl _) hf

theorem compareF_ok {skip : String → Bool} : ∀ fuel {a b : Entries} {pre : String}
    {keys : List String},
    esize a + esize b ≤ fuel → wfEntries a = true → wfEntries b = true →
    (∀ k ∈ keys, k ∈ keysOf a ∨ k ∈ keysOf b) →
    ∃ rs, compareF skip fuel pre a b keys = Except.ok rs := by
  intro fuel
  induction fuel with
  | zero =>
    intro a b pre keys h₁ _ _ _
    exact absurd h₁ (by have := esize_pos a; have := esize_pos b; omega)
  | succ n ih =>
    intro a b pre keys hf hwa hwb hkeys
    rw [compareF_succ]
    suffices h : ∀ keys₁ : List String, (∀ k ∈ keys₁, k ∈ keysOf a ∨ k ∈ keysOf b) →
        ∃ vs, stepsRun (stepKey skip (compareF skip n) pre a b) keys₁ = Except.ok vs by
      obtain ⟨vs, hvs⟩ := h keys hkeys
      refine ⟨vs.flatten, ?_⟩
      rw [hvs]
      rfl
    intro keys₁
    induction keys₁ with
    | nil => exact fun _ => ⟨[], rfl⟩
    | cons k ks ihk =>
      intro hks
      obtain ⟨vs, hvs⟩ := ihk (fun k' hk' => hks k' (List.mem_cons_of_mem _ hk'))
      have hstep : ∃ s, stepKey skip (compareF skip n) pre a b k = Except.ok s := by
        have hk := hks k (List.mem_cons_self _ _)
        unfold stepKey
        cases hla : lookupKey k a with
        | none =>
          cases hlb : lookupKey k b with
          | none =>
            rw [lookupKey_none_iff] at hla hlb
            rcases hk with hk | hk
            · exact absurd hk hla
            · exact absurd hk hlb
          | some vb =>
            have hwv := wf_lookup hwb hlb
            cases vb with
            | obj eb => exact ⟨_, rfl⟩
            | int m => exact ⟨_, rfl⟩
            | str s => exact ⟨_, rfl⟩
            | bool x => simp [wfv] at hwv
            | arr l => simp [wfv] at hwv
            | null => simp [wfv] at hwv
        | some va =>
          have hwva := wf_lookup hwa hla
          cases hlb : lookupKey k b with
          | none =>
            cases va with
            | obj ea => exact ⟨_, rfl⟩
            | int m => exact ⟨_, rfl⟩
            | str s => exact ⟨_, rfl⟩
            | bool x => simp [wfv] at hwva
            | arr l => simp [wfv] at hwva
            | null => simp [wfv] at hwva
          | some vb =>
            have hwvb := wf_lookup hwb hlb
            cases va with
            | bool x => simp [wfv] at hwva
            | arr l => simp [wfv] at hwva
            | null => simp [wfv] at hwva
            | obj ea =>
              cases vb with
              | bool x => simp [wfv] at hwvb
              | arr l => simp [wfv] at hwvb
              | null => simp [wfv] at hwvb
              | int m =>
                by_cases hs : skip (pathJoin pre k) <;> simp [hs, isIntLike, itemType, Except.bind, Except.map]
              | str s =>
                by_cases hs : skip (pathJoin pre k) <;> simp [hs, isIntLike, itemType, Except.bind, Except.map]
              | obj eb =>
                by_cases hs : skip (pathJoin pre k)
                · exact ⟨[], by simp [hs]⟩
                · have ha := esize_lookup hla
                  have hb := esize_lookup hlb
                  simp [vsize] at ha hb
                  have hwea : wfEntries ea = true := by simpa [wfv] using hwva
                  have hweb : wfEntries eb = true := by simpa [wfv] using hwvb
                  obtain ⟨rs, hrs⟩ := @ih ea eb (pathJoin pre k) (sortedUnion ea eb)
                    (by omega) hwea hweb
                    (fun k' hk' => mem_sortedUnion.mp hk')
                  exact ⟨rs, by simp [hs, hrs]⟩
            | int m =>
              cases vb with
              | bool x => simp [wfv] at hwvb
              | arr l => simp [wfv] at hwvb
              | null => simp [wfv] at hwvb
              | obj eb =>
                by_cases hs : skip (pathJoin pre k) <;> simp [hs, isIntLike, itemType, Except.bind, Except.map]
              | int m₂ =>
                by_cases hs : skip (pathJoin pre k) <;> simp [hs, isIntLike]
              | str s =>
                by_cases hs : skip (pathJoin pre k) <;> simp [hs, isIntLike, itemType, Except.bind, Except.map]
            | str s =>
              cases vb with
              | bool x => simp [wfv] at hwvb
              | arr l => simp [wfv] at hwvb
              | null => simp [wfv] at hwvb
              | obj eb =>
                by_cases hs : skip (pathJoin pre k) <;> simp [hs, isIntLike, itemType, Except.bind, Except.map]
              | int m₂ =>
                by_cases hs : skip (pathJoin pre k) <;> simp [hs, isIntLike, itemType, Except.bind, Except.map]
              | str s₂ =>
                by_cases hs : skip (pathJoin pre k) <;> simp [hs, isIntLike, itemType, Except.bind, Except.map]
      obtain ⟨s, hs⟩ := hstep
      refine ⟨s :: vs, ?_⟩
      simp only [stepsRun, hs, hvs]

theorem compare_ok {skip : String → Bool} {a b : Entries} {pre : String}
    (hwa : wfEntries a = true) (hwb : wfEntries b = true) :
    ∃ rs, Comparer.compare skip a b pre = Except.ok rs :=
  compareF_ok _ (Nat.le_refl _) hwa hwb (fun _ hk => mem_sortedUnion.mp hk)

theorem compareF_refl {skip : String → Bool} : ∀ fuel {a : Entries} {pre : String}
    {keys : List String},
    esize a + esize a ≤ fuel → wfEntries a = true → (∀ k ∈ keys, k ∈ keysOf a) →
    compareF skip fuel pre a a keys = Except.ok [] := by
  intro fuel
  induction fuel with
  | zero =>
    intro a pre keys h₁ _ _
    exact absurd h₁ (by have := esize_pos a; omega)
  | succ n ih =>
    intro a pre keys hf hwa hkeys
    rw [compareF_succ]
    induction keys with
    | nil => rfl
    | cons k ks ihk =>
      have hrest := ihk (fun k' h' => hkeys k' (List.mem_cons_of_mem _ h'))
      cases hmm : stepsRun (stepKey skip (compareF skip n) pre a a) ks with
      | error e =>
        rw [hmm] at hrest
        simp [flattenResult] at hrest
      | ok vs =>
        rw [hmm] at hrest
        have hflat : vs.flatten = [] := by simpa [flattenResult] using hrest
        have hk := hkeys k (List.mem_cons_self _ _)
        have hsome : (lookupKey k a).isSome = true := lookupKey_isSome_iff.mpr hk
        have hstep : stepKey skip (compareF skip n) pre a a k = Except.ok [] := by
          cases hla : lookupKey k a with
          | none => rw [hla] at hsome; simp at hsome
          | some v =>
            have hwv := wf_lookup hwa hla
            unfold stepKey
            rw [hla]
            cases v with
            | bool x => simp [wfv] at hwv
            | arr l => simp [wfv] at hwv
            | null => simp [wfv] at hwv
            | int m => simp [isIntLike]
            | str s => simp [isIntLike, itemType, Except.bind, Except.map]
            | obj ea =>
              by_cases hs : skip (pathJoin pre k)
              · simp [hs]
              · have ha := esize_lookup hla
                simp [vsize] at ha
                have hwea : wfEntries ea = true := by simpa [wfv] using hwv
                have hrec := @ih ea (pathJoin pre k) (sortedUnion ea ea)
                  (by omega) hwea
                  (fun k' hk' => (mem_sortedUnion.mp hk').elim id id)
                simp [hs, hrec]
        simp only [stepsRun, hstep, hmm, flattenResult]
        simp [hflat]

/-- Reflexivity of the comparer on any well-formed entry list. -/
theorem compare_refl {skip : String → Bool} {a : Entries} {pre : String}
    (hwa : wfEntries a = true) :
    Comparer.compare skip a a pre = Except.ok [] := by
  rw [Comparer.compare]
  exact compareF_refl _ (Nat.le_refl _) hwa
    (fun k hk => (mem_sortedUnion.mp hk).elim id id)

theorem stepsRun_stepKey_ok {skip : String → Bool} {fuel : Nat} {a b : Entries}
    {pre : String} {keys : List String}
    (hf : esize a + esize b ≤ Nat.succ fuel)
    (hwa : wfEntries a = true) (hwb : wfEntries b = true)
    (hkeys : ∀ k ∈ keys, k ∈ keysOf a ∨ k ∈ keysOf b) :
    ∃ vs, stepsRun (stepKey skip (compareF skip fuel) pre a b) keys = Except.ok vs := by
  obtain ⟨rs, hrs⟩ := @compareF_ok skip (Nat.succ fuel) a b pre keys
    hf hwa hwb hkeys
  rw [compareF_succ] at hrs
  cases hmm : stepsRun (stepKey skip (compareF skip fuel) pre a b) keys with
  | error e =>
    rw [hmm] at hrs
    simp [flattenResult] at hrs
  | ok vs => exact ⟨vs, rfl⟩

theorem stepsRun_split {f : String → Except Unit (List DiffRecord)} :
    ∀ {ks₁ : List String} {ks₂ : List String} {v₁ v₂ : List (List DiffRecord)}
    {s : List DiffRecord} {k : String},
    stepsRun f ks₁ = Except.ok v₁ → f k = Except.ok s →
    stepsRun f ks₂ = Except.ok v₂ →
    stepsRun f (ks₁ ++ k :: ks₂) = Except.ok (v₁ ++ s :: v₂) := by
  intro ks₁
  induction ks₁ with
  | nil =>
    intro ks₂ v₁ v₂ s k h₁ hk h₂
    have hv : v₁ = [] := by simpa [stepsRun] using h₁.symm
    subst hv
    simp only [List.nil_append]
    simp only [stepsRun, hk, h₂]
  | cons k₁ ks₁ ih =>
    intro ks₂ v₁ v₂ s k h₁ hk h₂
    obtain ⟨s₁, v₁', hf₁, hr₁, hv₁⟩ := stepsRun_cons_ok h₁
    subst hv₁
    simp only [List.cons_append]
    simp only [stepsRun, hf₁, ih hr₁ hk h₂]

/-- The block decomposition of a comparison around one key of the sorted
union: the report is (the flattening of) the blocks before `k`, then `k`'s
own `stepKey` block, then the blocks after `k`. -/
theorem compare_block {skip : String → Bool} {a b : Entries} {pre : String}
    {k : String} {s : List DiffRecord}
    (hwa : wfEntries a = true) (hwb : wfEntries b = true)
    (hk : k ∈ sortedUnion a b)
    (hs : stepKey skip (compareF skip (esize a + esize b - 1)) pre a b k = Except.ok s) :
    ∃ rs₁ rs₂, Comparer.compare skip a b pre = Except.ok (rs₁ ++ s ++ rs₂) := by
  obtain ⟨ks₁, ks₂, hsplit⟩ := List.append_of_mem hk
  have hfe : Nat.succ (esize a + esize b - 1) = esize a + esize b := by
    have := esize_pos a
    have := esize_pos b
    omega
  have hmem : ∀ k' ∈ ks₁ ++ k :: ks₂, k' ∈ keysOf a ∨ k' ∈ keysOf b := by
    intro k' hk'
    exact mem_sortedUnion.mp (hsplit ▸ hk')
  obtain ⟨v₁, hv₁⟩ := @stepsRun_stepKey_ok skip (esize a + esize b - 1) a b pre ks₁
    (by omega) hwa hwb
    (fun k' h' => hmem k' (List.mem_append_left _ h'))
  obtain ⟨v₂, hv₂⟩ := @stepsRun_stepKey_ok skip (esize a + esize b - 1) a b pre ks₂
    (by omega) hwa hwb
    (fun k' h' => hmem k' (List.mem_append_right _ (List.mem_cons_of_mem _ h')))
  refine ⟨v₁.flatten, v₂.flatten, ?_⟩
  rw [Comparer.compare, ← hfe, compareF_succ, hsplit,
    stepsRun_split hv₁ hs hv₂]
  simp [flattenResult]

theorem stepKey_only_a {skip : String → Bool}
    {r : String → Entries → Entries → List String → Except Unit (List DiffRecord)}
    {pre : String} {a b : Entries} {k : String} {va : JValue}
    (hla : lookupKey k a = some va) (hlb : lookupKey k b = none)
    (hwv : wfv va = true) :
    stepKey skip r pre a b k =
      Except.ok [⟨pathJoin pre k, typeLabel va, "n/a"⟩] := by
  unfold stepKey
  rw [hla, hlb]
  cases va with
  | obj ea => rfl
  | int m => rfl
  | str s => rfl
  | bool x => rfl
  | arr l => simp [wfv] at hwv
  | null => simp [wfv] at hwv

theorem stepKey_only_b {skip : String → Bool}
    {r : String → Entries → Entries → List String → Except Unit (List DiffRecord)}
    {pre : String} {a b : Entries} {k : String} {vb : JValue}
    (hla : lookupKey k a = none) (hlb : lookupKey k b = some vb)
    (hwv : wfv vb = true) :
    stepKey skip r pre a b k =
      Except.ok [⟨pathJoin pre k, "n/a", typeLabel vb⟩] := by
  unfold stepKey
  rw [hla, hlb]
  cases vb with
  | obj ea => rfl
  | int m => rfl
  | str s => rfl
  | bool x => rfl
  | arr l => simp [wfv] at hwv
  | null => simp [wfv] at hwv

theorem stepKey_both_int {skip : String → Bool}
    {r : String → Entries → Entries → List String → Except Unit (List DiffRecord)}
    {pre : String} {a b : Entries} {k : String} {x y : Int}
    (hla : lookupKey k a = some (JValue.int x))
    (hlb : lookupKey k b = some (JValue.int y))
    (hs : skip (pathJoin pre k) = false) :
    stepKey skip r pre a b k =
      Except.ok (if x = y then []
        else [⟨pathJoin pre k, toString x ++ "b", toString y ++ "b"⟩]) := by
  unfold stepKey
  rw [hla, hlb]
  by_cases hxy : x = y <;> simp [hs, isIntLike, intVal, pyIntStr, hxy]

/-- A child present only on the `a` side is always reported as
`(path, typeLabel, "n/a")` (no skip consultation happens for one-sided
children). -/
theorem one_sided_a_record {skip : String → Bool} {a b : Entries} {pre : String}
    {k : String} {va : JValue}
    (hwa : wfEntries a = true) (hwb : wfEntries b = true)
    (hla : lookupKey k a = some va) (hlb : lookupKey k b = none) :
    ∃ rs, Comparer.compare skip a b pre = Except.ok rs ∧
      (⟨pathJoin pre k, typeLabel va, "n/a"⟩ : DiffRecord) ∈ rs := by
  have hk : k ∈ sortedUnion a b :=
    mem_sortedUnion.mpr (Or.inl (lookupKey_isSome_iff.mp (by rw [hla]; rfl)))
  have hwv := wf_lookup hwa hla
  obtain ⟨rs₁, rs₂, hc⟩ := compare_block hwa hwb hk (stepKey_only_a hla hlb hwv)
  exact ⟨_, hc, by simp⟩

/-- A child present only on the `b` side is always reported as
`(path, "n/a", typeLabel)`. -/
theorem one_sided_b_record {skip : String → Bool} {a b : Entries} {pre : String}
    {k : String} {vb : JValue}
    (hwa : wfEntries a = true) (hwb : wfEntries b = true)
    (hla : lookupKey k a = none) (hlb : lookupKey k b = some vb) :
    ∃ rs, Comparer.compare skip a b pre = Except.ok rs ∧
      (⟨pathJoin pre k, "n/a", typeLabel vb⟩ : DiffRecord) ∈ rs := by
  have hk : k ∈ sortedUnion a b :=
    mem_sortedUnion.mpr (Or.inr (lookupKey_isSome_iff.mp (by rw [hlb]; rfl)))
  have hwv := wf_lookup hwb hlb
  obtain ⟨rs₁, rs₂, hc⟩ := compare_block hwa hwb hk (stepKey_only_b hla hlb hwv)
  exact ⟨_, hc, by simp⟩

theorem stepKey_paths {skip : String → Bool}
    {r : String → Entries → Entries → List String → Except Unit (List DiffRecord)}
    {pre : String} {a b : Entries} {k : String} {s : List DiffRecord}
    (hrec : ∀ ea eb rs, r (pathJoin pre k) ea eb (sortedUnion ea eb) = Except.ok rs →
      ∀ x ∈ rs, skip x.path = true → x.left = "n/a" ∨ x.right = "n/a")
    (hs : stepKey skip r pre a b k = Except.ok s) :
    ∀ x ∈ s, skip x.path = true → x.left = "n/a" ∨ x.right = "n/a" := by
  unfold stepKey at hs
  cases hla : lookupKey k a with
  | none =>
    cases hlb : lookupKey k b with
    | none =>
      rw [hla, hlb] at hs
      simp at hs
    | some vb =>
      rw [hla, hlb] at hs
      cases hit : itemType vb with
      | error e =>
        cases vb <;> simp [hit, Except.map, itemType] at hs hit
      | ok t =>
        cases vb <;> simp [itemType, Except.map, itemType] at hs hit <;>
          (intro x hx _
           rw [← hs] at hx
           simp at hx
           subst hx
           exact Or.inl rfl)
  | some va =>
    cases hlb : lookupKey k b with
    | none =>
      rw [hla, hlb] at hs
      cases hit : itemType va with
      | error e =>
        cases va <;> simp [hit, Except.map, itemType] at hs hit
      | ok t =>
        cases va <;> simp [itemType, Except.map, itemType] at hs hit <;>
          (intro x hx _
           rw [← hs] at hx
           simp at hx
           subst hx
           exact Or.inr rfl)
    | some vb =>
      rw [hla, hlb] at hs
      by_cases hskp : skip (pathJoin pre k)
      · cases va <;> cases vb <;>
          (simp [hskp] at hs
           subst hs
           intro x hx
           simp at hx)
      · have hskpf : skip (pathJoin pre k) = false := by
          simpa using hskp
        cases va <;> cases vb <;>
          first
          | (simp [hskpf] at hs
             exact hrec _ _ s hs)
          | (simp [hskpf, isIntLike, intVal, pyIntStr, itemType,
               Except.bind, Except.map] at hs
             done)
          | (simp [hskpf, isIntLike, intVal, pyIntStr, itemType,
               Except.bind, Except.map] at hs
             intro x hx hxs
             rw [← hs] at hx
             simp at hx
             first
             | (subst hx
                exact absurd hxs (by simp [hskpf]))
             | (obtain ⟨-, hxe⟩ := hx
                subst hxe
                exact absurd hxs (by simp [hskpf])))

/-- Every record at a skip-matched path is one-sided: records for children
present on both sides are only emitted at paths the matcher does not
match, and skipped subtrees are never descended into. -/
theorem compareF_skip_na {skip : String → Bool} : ∀ fuel {a b : Entries}
    {pre : String} {keys : List String} {rs : List DiffRecord},
    compareF skip fuel pre a b keys = Except.ok rs →
    ∀ r ∈ rs, skip r.path = true → r.left = "n/a" ∨ r.right = "n/a" := by
  intro fuel
  induction fuel with
  | zero =>
    intro a b pre keys rs h
    simp [compareF] at h
  | succ n ih =>
    intro a b pre keys rs h r hr hskip
    rw [compareF_succ] at h
    cases hmm : stepsRun (stepKey skip (compareF skip n) pre a b) keys with
    | error e =>
      rw [hmm] at h
      simp [flattenResult] at h
    | ok vs =>
      rw [hmm] at h
      have hrs : vs.flatten = rs := by simpa [flattenResult] using h
      subst hrs
      rw [List.mem_flatten] at hr
      obtain ⟨blk, hblkmem, hrblk⟩ := hr
      clear h
      induction keys generalizing vs with
      | nil =>
        have hnil : vs = [] := by simpa [stepsRun] using hmm.symm
        subst hnil
        simp at hblkmem
      | cons k ks ihk =>
        obtain ⟨s, vs', hstep, hrest, hvs⟩ := stepsRun_cons_ok hmm
        subst hvs
        rcases List.mem_cons.mp hblkmem with hbs | hbs
        · subst hbs
          exact stepKey_paths (fun ea eb rs hrec x hx hxs => ih hrec x hx hxs)
            hstep r hrblk hskip
        · exact ihk vs' hrest hbs

theorem flattenResult_error {x : Except Unit (List (List DiffRecord))} :
    flattenResult x = Except.error () ↔ x = Except.error () := by
  cases x <;> simp [flattenResult]

theorem compareF_congr_lookups {skip : String → Bool} {fuel : Nat} {pre : String}
    {a a' b b' : Entries} {keys : List String}
    (ha : ∀ k ∈ keys, lookupKey k a = lookupKey k a')
    (hb : ∀ k ∈ keys, lookupKey k b = lookupKey k b') :
    compareF skip fuel pre a b keys = compareF skip fuel pre a' b' keys := by
  cases fuel with
  | zero => rfl
  | succ n =>
    rw [compareF_succ, compareF_succ]
    have hpt : ∀ k ∈ keys, stepKey skip (compareF skip n) pre a b k
             = stepKey skip (compareF skip n) pre a' b' k := by
      intro k hk
      unfold stepKey
      rw [ha k hk, hb k hk]
    rw [stepsRun_congr hpt]

theorem stepKey_skipped {skip : String → Bool}
    {r : String → Entries → Entries → List String → Except Unit (List DiffRecord)}
    {pre : String} {a b : Entries} {k : String}
    (hsa : (lookupKey k a).isSome = true) (hsb : (lookupKey k b).isSome = true)
    (hs : skip (pathJoin pre k) = true) :
    stepKey skip r pre a b k = Except.ok [] := by
  cases hla : lookupKey k a with
  | none => rw [hla] at hsa; simp at hsa
  | some va =>
    cases hlb : lookupKey k b with
    | none => rw [hlb] at hsb; simp at hsb
    | some vb =>
      unfold stepKey
      rw [hla, hlb]
      cases va <;> cases vb <;> simp [hs]

theorem compareF_drop_skipped {skip : String → Bool} {fuel : Nat} {pre : String}
    {a b : Entries} {k : String}
    (hsa : (lookupKey k a).isSome = true) (hsb : (lookupKey k b).isSome = true)
    (hs : skip (pathJoin pre k) = true) :
    ∀ keys, compareF skip fuel pre a b keys
      = compareF skip fuel pre a b (keys.filter (fun x => !(x == k))) := by
  intro keys
  cases fuel with
  | zero => rfl
  | succ n =>
    rw [compareF_succ, compareF_succ]
    induction keys with
    | nil => rfl
    | cons k₁ ks ihk =>
      by_cases hk : k₁ = k
      · subst hk
        have hfil : ((k₁ :: ks).filter (fun x => !(x == k₁)))
            = ks.filter (fun x => !(x == k₁)) := by
          simp [List.filter_cons]
        rw [hfil]
        have hstepk : stepKey skip (compareF skip n) pre a b k₁ = Except.ok [] :=
          stepKey_skipped hsa hsb hs
        have hl : flattenResult (stepsRun (stepKey skip (compareF skip n) pre a b) (k₁ :: ks))
            = flattenResult (stepsRun (stepKey skip (compareF skip n) pre a b) ks) := by
          cases hmm : stepsRun (stepKey skip (compareF skip n) pre a b) ks with
          | error e => simp only [stepsRun, hstepk, hmm, flattenResult]
          | ok vs =>
            simp only [stepsRun, hstepk, hmm, flattenResult]
            simp
        rw [hl, ihk]
      · have hfil : ((k₁ :: ks).filter (fun x => !(x == k)))
            = k₁ :: ks.filter (fun x => !(x == k)) := by
          simp [List.filter_cons, hk]
        rw [hfil]
        cases hstep₁ : stepKey skip (compareF skip n) pre a b k₁ with
        | error e => simp only [stepsRun, hstep₁, flattenResult]
        | ok s =>
          cases hmm : stepsRun (stepKey skip (compareF skip n) pre a b) ks with
          | error e =>
            have hrhs : stepsRun (stepKey skip (compareF skip n) pre a b)
                (ks.filter (fun x => !(x == k))) = Except.error () := by
              rw [hmm] at ihk
              cases hmm₂ : stepsRun (stepKey skip (compareF skip n) pre a b)
                  (ks.filter (fun x => !(x == k))) with
              | error e₂ => rfl
              | ok vs₂ =>
                rw [hmm₂] at ihk
                simp [flattenResult] at ihk
            simp only [stepsRun, hstep₁, hmm, hrhs, flattenResult]
          | ok vs =>
            rw [hmm] at ihk
            cases hmm₂ : stepsRun (stepKey skip (compareF skip n) pre a b)
                (ks.filter (fun x => !(x == k))) with
            | error e₂ =>
              rw [hmm₂] at ihk
              simp [flattenResult] at ihk
            | ok vs₂ =>
              rw [hmm₂] at ihk
              simp [flattenResult] at ihk
              simp only [stepsRun, hstep₁, hmm, hmm₂, flattenResult]
              simp [ihk]

theorem mem_keysOf_removeKey {x k : String} :
    ∀ {l : Entries}, x ∈ keysOf (removeKey k l) ↔ x ∈ keysOf l ∧ ¬x = k := by
  intro l
  induction l with
  | nil => simp [removeKey, keysOf]
  | cons hd tl ih =>
    obtain ⟨k₁, v₁⟩ := hd
    by_cases hk : k₁ = k
    · subst hk
      have : removeKey k₁ ((k₁, v₁) :: tl) = removeKey k₁ tl := by
        simp [removeKey, List.filter_cons]
      rw [this, ih]
      constructor
      · exact fun ⟨h₁, h₂⟩ => ⟨by simp [keysOf]; exact Or.inr (by simpa [keysOf] using h₁), h₂⟩
      · rintro ⟨h₁, h₂⟩
        simp [keysOf] at h₁
        rcases h₁ with h₁ | h₁
        · exact absurd h₁ h₂
        · exact ⟨by simpa [keysOf] using h₁, h₂⟩
    · have : removeKey k ((k₁, v₁) :: tl) = (k₁, v₁) :: removeKey k tl := by
        simp [removeKey, List.filter_cons, hk]
      rw [this]
      have hkc : keysOf ((k₁, v₁) :: removeKey k tl) = k₁ :: keysOf (removeKey k tl) := rfl
      have hkc₂ : keysOf ((k₁, v₁) :: tl) = k₁ :: keysOf tl := rfl
      rw [hkc, hkc₂, List.mem_cons, List.mem_cons, ih]
      constructor
      · rintro (h₁ | ⟨h₁, h₂⟩)
        · exact ⟨Or.inl h₁, h₁ ▸ hk⟩
        · exact ⟨Or.inr h₁, h₂⟩
      · rintro ⟨h₁ | h₁, h₂⟩
        · exact Or.inl h₁
        · exact Or.inr ⟨h₁, h₂⟩

theorem lookupKey_removeKey_ne {k' k : String} (h : ¬k' = k) :
    ∀ {l : Entries}, lookupKey k' (removeKey k l) = lookupKey k' l := by
  intro l
  induction l with
  | nil => simp [removeKey]
  | cons hd tl ih =>
    obtain ⟨k₁, v₁⟩ := hd
    by_cases hk : k₁ = k
    · subst hk
      have hrm : removeKey k₁ ((k₁, v₁) :: tl) = removeKey k₁ tl := by
        simp [removeKey, List.filter_cons]
      have hne : ¬k₁ = k' := fun hc => h (hc.symm ▸ rfl)
      rw [hrm, ih]
      simp [lookupKey, hne]
    · have hrm : removeKey k ((k₁, v₁) :: tl) = (k₁, v₁) :: removeKey k tl := by
        simp [removeKey, List.filter_cons, hk]
      rw [hrm]
      by_cases hk₁ : k₁ = k'
      · simp [lookupKey, hk₁]
      · simp [lookupKey, hk₁, ih]

theorem sortedUnion_removeKey {k : String} {a b : Entries} :
    sortedUnion (removeKey k a) (removeKey k b)
      = (sortedUnion a b).filter (fun x => !(x == k)) := by
  apply List.eq_of_perm_of_sorted
    (r := fun s t => strLe s t = true)
  · apply (List.perm_ext_iff_of_nodup (nodup_sortedUnion _ _)
      ((nodup_sortedUnion a b).filter _)).mpr
    intro x
    rw [mem_sortedUnion, List.mem_filter, mem_sortedUnion,
      mem_keysOf_removeKey, mem_keysOf_removeKey]
    constructor
    · rintro (⟨h₁, h₂⟩ | ⟨h₁, h₂⟩)
      · exact ⟨Or.inl h₁, by simpa using h₂⟩
      · exact ⟨Or.inr h₁, by simpa using h₂⟩
    · rintro ⟨h₁ | h₁, h₂⟩
      · exact Or.inl ⟨h₁, by simpa using h₂⟩
      · exact Or.inr ⟨h₁, by simpa using h₂⟩
  · exact sorted_sortedUnion _ _
  · exact List.Pairwise.filter _ (sorted_sortedUnion a b)

theorem esize_removeKey_le {k : String} : ∀ l : Entries, esize (removeKey k l) ≤ esize l := by
  intro l
  induction l with
  | nil => simp [removeKey]
  | cons hd tl ih =>
    obtain ⟨k₁, v₁⟩ := hd
    by_cases hk : k₁ = k
    · have hrm : removeKey k ((k₁, v₁) :: tl) = removeKey k tl := by
        simp [removeKey, List.filter_cons, hk]
      rw [hrm]
      have := esize_pos tl
      simp [esize]
      omega
    · have hrm : removeKey k ((k₁, v₁) :: tl) = (k₁, v₁) :: removeKey k tl := by
        simp [removeKey, List.filter_cons, hk]
      rw [hrm]
      simp [esize]
      omega

/-- Removing a skip-matched key that both trees share changes nothing in
the report: the matched child and its whole subtree are irrelevant to the
comparison. -/
theorem compare_erase_skipped {skip : String → Bool} {a b : Entries} {pre : String}
    {k : String}
    (hsa : (lookupKey k a).isSome = true) (hsb : (lookupKey k b).isSome = true)
    (hs : skip (pathJoin pre k) = true) :
    Comparer.compare skip a b pre
      = Comparer.compare skip (removeKey k a) (removeKey k b) pre := by
  have h₂ := @compareF_drop_skipped skip (esize a + esize b) pre a b k
    hsa hsb hs (sortedUnion a b)
  have h₃ : compareF skip (esize a + esize b) pre a b
      ((sortedUnion a b).filter (fun x => !(x == k)))
      = compareF skip (esize a + esize b) pre (removeKey k a) (removeKey k b)
      ((sortedUnion a b).filter (fun x => !(x == k))) := by
    apply compareF_congr_lookups
    · intro k' hk'
      have hne : ¬k' = k := by
        have := List.of_mem_filter hk'
        simpa using this
      exact (lookupKey_removeKey_ne hne).symm
    · intro k' hk'
      have hne : ¬k' = k := by
        have := List.of_mem_filter hk'
        simpa using this
      exact (lookupKey_removeKey_ne hne).symm
  have h₄ : compareF skip (esize a + esize b) pre (removeKey k a) (removeKey k b)
      (sortedUnion (removeKey k a) (removeKey k b))
      = Comparer.compare skip (removeKey k a) (removeKey k b) pre := by
    refine (compare_eq_compareF ?_).symm
    have := esize_removeKey_le (k := k) a
    have := esize_removeKey_le (k := k) b
    omega
  rw [Comparer.compare, h₂, h₃, ← sortedUnion_removeKey, h₄]

theorem lookupKey_perm : ∀ {a a' : Entries}, a.Perm a' → (keysOf a).Nodup →
    ∀ k, lookupKey k a = lookupKey k a' := by
  intro a a' hp
  induction hp with
  | nil => intro _ k; rfl
  | cons x h ih =>
    intro hn k
    obtain ⟨k₁, v₁⟩ := x
    have hx := hn
    simp [keysOf] at hx
    by_cases hk : k₁ = k <;> simp [lookupKey, hk]
    exact ih hx.2 k
  | swap x y l =>
    intro hn k
    obtain ⟨k₁, v₁⟩ := x
    obtain ⟨k₂, v₂⟩ := y
    have hn' : ¬k₂ = k₁ := by
      have hx := hn
      simp [keysOf] at hx
      exact hx.1.1
    by_cases h₂ : k₂ = k <;> by_cases h₁ : k₁ = k
    · exact absurd (h₂.trans h₁.symm) hn'
    · simp [lookupKey, h₂, h₁]
    · simp [lookupKey, h₂, h₁]
    · simp [lookupKey, h₂, h₁]
  | trans h₁ h₂ ih₁ ih₂ =>
    intro hn k
    have hperm : (keysOf _).Perm (keysOf _) := h₁.map Prod.fst
    exact (ih₁ hn k).trans (ih₂ (hperm.nodup_iff.mp hn) k)

theorem esize_perm : ∀ {a a' : Entries}, a.Perm a' → esize a = esize a' := by
  intro a a' hp
  induction hp with
  | nil => rfl
  | cons x h ih =>
    obtain ⟨k₁, v₁⟩ := x
    simp [esize, ih]
  | swap x y l =>
    obtain ⟨k₁, v₁⟩ := x
    obtain ⟨k₂, v₂⟩ := y
    simp [esize]
    omega
  | trans h₁ h₂ ih₁ ih₂ => exact ih₁.trans ih₂

theorem sortedUnion_perm_eq {a a' b b' : Entries}
    (hpa : a.Perm a') (hpb : b.Perm b') :
    sortedUnion a b = sortedUnion a' b' := by
  apply List.eq_of_perm_of_sorted (r := fun s t => strLe s t = true)
  · apply (List.perm_ext_iff_of_nodup (nodup_sortedUnion _ _)
      (nodup_sortedUnion _ _)).mpr
    intro x
    rw [mem_sortedUnion, mem_sortedUnion]
    have hma : x ∈ keysOf a ↔ x ∈ keysOf a' := (hpa.map Prod.fst).mem_iff
    have hmb : x ∈ keysOf b ↔ x ∈ keysOf b' := (hpb.map Prod.fst).mem_iff
    rw [hma, hmb]
  · exact sorted_sortedUnion _ _
  · exact sorted_sortedUnion _ _

/-- The comparer's report depends on the two objects only through their
key-to-value mappings: permuting the (unique-keyed) entries — e.g. a
different directory-discovery order at scan time — changes nothing. -/
theorem compare_perm {skip : String → Bool} {a a' b b' : Entries} {pre : String}
    (hpa : a.Perm a') (hpb : b.Perm b')
    (hna : (keysOf a).Nodup) (hnb : (keysOf b).Nodup) :
    Comparer.compare skip a b pre = Comparer.compare skip a' b' pre := by
  rw [Comparer.compare,
    @compareF_congr_lookups skip (esize a + esize b) pre a a' b b' (sortedUnion a b)
      (fun k _ => lookupKey_perm hpa hna k) (fun k _ => lookupKey_perm hpb hnb k),
    sortedUnion_perm_eq hpa hpb]
  refine (compare_eq_compareF ?_).symm
  rw [esize_perm hpa, esize_perm hpb]

/-- A child that is a (non-skipped) integer pair contributes exactly the
block `[(path, "xb", "yb")]` when the sizes differ and nothing at all when
they agree. -/
theorem int_pair_block {skip : String → Bool} {a b : Entries} {pre : String}
    {k : String} {x y : Int}
    (hwa : wfEntries a = true) (hwb : wfEntries b = true)
    (hla : lookupKey k a = some (JValue.int x))
    (hlb : lookupKey k b = some (JValue.int y))
    (hs : skip (pathJoin pre k) = false) :
    ∃ rs₁ rs₂, Comparer.compare skip a b pre =
      Except.ok (rs₁ ++ (if x = y then []
        else [⟨pathJoin pre k, toString x ++ "b", toString y ++ "b"⟩]) ++ rs₂) := by
  have hk : k ∈ sortedUnion a b :=
    mem_sortedUnion.mpr (Or.inl (lookupKey_isSome_iff.mp (by rw [hla]; rfl)))
  obtain ⟨rs₁, rs₂, hc⟩ := compare_block hwa hwb hk (stepKey_both_int hla hlb hs)
  exact ⟨rs₁, rs₂, hc⟩

/-! Lemmas: the skip matcher agrees with the specification's glob language
on patterns without character classes. -/

theorem any_congr_list {α : Type} {l : List α} {f g : α → Bool}
    (h : ∀ x ∈ l, f x = g x) : l.any f = l.any g := by
  induction l with
  | nil => rfl
  | cons x xs ih =>
    simp only [List.any_cons, h x (List.mem_cons_self _ _),
      ih (fun y hy => h y (List.mem_cons_of_mem _ hy))]

theorem any_dedup {α : Type} [DecidableEq α] (l : List α) (p : α → Bool) :
    l.dedup.any p = l.any p := by
  apply Bool.eq_iff_iff.mpr
  simp [List.any_eq_true, List.mem_dedup]

theorem tokenizeF_noClass : ∀ fuel (cs : List Char), cs.length ≤ fuel →
    ('[' ∈ cs → False) → tokenizeF fuel cs = (specTokenize cs).map ofSpecTok := by
  intro fuel
  induction fuel with
  | zero =>
    intro cs h₁ h₂
    cases cs with
    | nil => rfl
    | cons c rest => simp at h₁
  | succ n ih =>
    intro cs h₁ h₂
    cases cs with
    | nil => rfl
    | cons c rest =>
      have hrest : '[' ∈ rest → False := fun h => h₂ (List.mem_cons_of_mem _ h)
      have hlen : rest.length ≤ n := by simpa using Nat.le_of_succ_le_succ h₁
      have hc : ¬c = '[' := fun h => h₂ (h ▸ List.mem_cons_self _ _)
      by_cases h₃ : c = '*'
      · subst h₃
        simp [tokenizeF, specTokenize, ofSpecTok, ih rest hlen hrest]
      · by_cases h₄ : c = '?'
        · subst h₄
          simp [tokenizeF, specTokenize, ofSpecTok, ih rest hlen hrest]
        · simp [tokenizeF, specTokenize, ofSpecTok, h₃, h₄, hc,
            ih rest hlen hrest]

theorem globTokens_ofSpec : ∀ (ts : List SpecTok) (cs : List Char),
    globTokens (ts.map ofSpecTok) cs = specMatchToks ts cs := by
  intro ts
  induction ts with
  | nil => intro cs; rfl
  | cons t ts ih =>
    intro cs
    cases t with
    | star =>
      simp only [List.map, ofSpecTok, globTokens, specMatchToks]
      exact any_congr_list (fun suf _ => ih suf)
    | anyChar =>
      cases cs with
      | nil => rfl
      | cons c cs => simpa [List.map, ofSpecTok, globTokens, specMatchToks] using ih cs
    | lit l =>
      cases cs with
      | nil => rfl
      | cons c cs =>
        simp only [List.map, ofSpecTok, globTokens, specMatchToks, ih cs]

theorem patMatch_noClass {p path : String} (h : '[' ∈ p.data → False) :
    patMatch p path = specMatchToks (specTokenize p.data) path.data := by
  rw [patMatch, tokenize, tokenizeF_noClass _ _ (Nat.le_refl _) h, globTokens_ofSpec]

theorem normalizePattern_cases (p : String) :
    normalizePattern p = p ∨ normalizePattern p = "*/" ++ p := by
  rw [normalizePattern]
  cases hd : p.data with
  | nil => exact Or.inr rfl
  | cons c rest =>
    by_cases h₁ : c = '*'
    · subst h₁; exact Or.inl rfl
    · by_cases h₂ : c = '?'
      · subst h₂
        simp [h₁]
      · by_cases h₃ : c = '/'
        · subst h₃
          simp [h₁, h₂]
        · simp [h₁, h₂, h₃]

theorem normalizePattern_noClass {p : String} (h : '[' ∈ p.data → False) :
    '[' ∈ (normalizePattern p).data → False := by
  rcases normalizePattern_cases p with hn | hn <;> rw [hn]
  · exact h
  · intro hc
    rw [String.data_append] at hc
    rcases List.mem_append.mp hc with hc | hc
    · simp at hc
    · exact h hc

theorem skipChecker_eq_spec {ps : List String} {path : String}
    (h : ∀ p ∈ ps, '[' ∈ p.data → False) :
    get_skip_checker ps path = specMatcher ps path := by
  rw [get_skip_checker, specMatcher, any_dedup]
  apply any_congr_list
  intro p hp
  rw [patMatch_noClass (normalizePattern_noClass (h p hp))]

/-! Lemmas: the scanner. -/

theorem flsize_pos : ∀ l : List (String × FSNode), 1 ≤ flsize l
  | [] => by simp [flsize]
  | (_, e) :: rest => by simp [flsize]; omega

theorem map_congr_list {α β : Type} {l : List α} {f g : α → β}
    (h : ∀ x ∈ l, f x = g x) : l.map f = l.map g := by
  induction l with
  | nil => rfl
  | cons x xs ih =>
    simp only [List.map, h x (List.mem_cons_self _ _),
      ih (fun y hy => h y (List.mem_cons_of_mem _ hy))]

theorem scanEntryStep_depthDone {skip : String → Bool} {indent : String}
    {recur : Bool → List (String × FSNode) → String → String → Option Int → String}
    {dirPath pre : String} {md : Option Int} (h : depthDone md = true)
    (e : String × FSNode) :
    scanEntryStep skip indent recur dirPath pre md e = shallowStep e := by
  obtain ⟨n, fe⟩ := e
  cases fe <;> simp [scanEntryStep, shallowStep, h]

/-- With the depth bound exhausted, a directory scan renders every entry
shallowly: subdirectories become `unlisted dir` markers, nothing is
descended into, and the skip checker is never consulted. -/
theorem scan_depthDone {skip : String → Bool} {indent : String}
    {entries : List (String × FSNode)} {dirPath pre : String} {md : Option Int}
    (h : depthDone md = true) :
    Scanner.scan skip indent true entries dirPath pre md
      = "\x7b" ++ joinItems pre (entries.map shallowStep) true ++ "\x7d" := by
  rw [Scanner.scan]
  obtain ⟨m, hm⟩ : ∃ m, flsize entries = Nat.succ m :=
    ⟨flsize entries - 1, by have := flsize_pos entries; omega⟩
  rw [hm]
  have hmap : entries.map (scanEntryStep skip indent (scanF skip indent m) dirPath pre md)
            = entries.map shallowStep :=
    map_congr_list (fun e _ => scanEntryStep_depthDone h e)
  simp only [scanF, if_pos, hmap]

/-- On a listing without subdirectories the scanner never consults the
skip checker: any two matchers produce the same output. -/
theorem scan_noDirs {indent dirPath pre : String} {md : Option Int} {readable : Bool}
    {entries : List (String × FSNode)}
    (h : noDirEntries entries = true) (s₁ s₂ : String → Bool) :
    Scanner.scan s₁ indent readable entries dirPath pre md
      = Scanner.scan s₂ indent readable entries dirPath pre md := by
  rw [Scanner.scan, Scanner.scan]
  obtain ⟨m, hm⟩ : ∃ m, flsize entries = Nat.succ m :=
    ⟨flsize entries - 1, by have := flsize_pos entries; omega⟩
  rw [hm]
  clear hm
  cases readable with
  | false => rfl
  | true =>
    have hmap : entries.map (scanEntryStep s₁ indent (scanF s₁ indent m) dirPath pre md)
              = entries.map (scanEntryStep s₂ indent (scanF s₂ indent m) dirPath pre md) := by
      induction entries with
      | nil => rfl
      | cons e rest ih =>
        obtain ⟨n, fe⟩ := e
        cases fe with
        | dir r sub => simp [noDirEntries] at h
        | file sz =>
          simp only [List.map]
          rw [ih (by simpa [noDirEntries] using h)]
          rfl
        | symlink =>
          simp only [List.map]
          rw [ih (by simpa [noDirEntries] using h)]
          rfl
        | other =>
          simp only [List.map]
          rw [ih (by simpa [noDirEntries] using h)]
          rfl
    simp only [scanF, if_pos, hmap]

/-! The claims. -/

/-- C1: for every well-formed Snapshot tree (nested objects as
directories, integers as file sizes, strings as markers) and every skip
matcher, comparing the tree with itself emits an empty DiffRecord
sequence — both for the recursive `compare` at any prefix and for the
top-level invocation on the parsed documents. -/
theorem claim_c1 {skip : String → Bool} {a : Entries} {pre : String}
    (hwa : wfEntries a = true) :
    Comparer.compare skip a a pre = Except.ok [] ∧
    compareTop skip (JValue.obj a) (JValue.obj a) = Except.ok [] :=
  ⟨compare_refl hwa, compare_refl hwa⟩

theorem claim_c1_witness :
    Comparer.compare (fun _ => true) [("root", JValue.obj [("f", JValue.int 3)])]
      [("root", JValue.obj [("f", JValue.int 3)])] "" = Except.ok [] ∧
    compareTop (fun _ => true) (JValue.obj [("root", JValue.obj [("f", JValue.int 3)])])
      (JValue.obj [("root", JValue.obj [("f", JValue.int 3)])]) = Except.ok [] :=
  claim_c1 rfl

/-- C2: a child name present only in side `a` produces the DiffRecord
`(path, typeLabel, "n/a")` and a name present only in side `b` produces
`(path, "n/a", typeLabel)`, where `typeLabel` maps a directory to `dir`,
an integer to `file` and a string marker to itself. -/
theorem claim_c2 {skip : String → Bool} {a b : Entries} {pre k : String}
    (hwa : wfEntries a = true) (hwb : wfEntries b = true) :
    ((∀ l, typeLabel (JValue.obj l) = "dir") ∧ (∀ n, typeLabel (JValue.int n) = "file")
      ∧ (∀ s, typeLabel (JValue.str s) = s)) ∧
    (∀ va, lookupKey k a = some va → lookupKey k b = none →
      ∃ rs, Comparer.compare skip a b pre = Except.ok rs ∧
        (⟨pathJoin pre k, typeLabel va, "n/a"⟩ : DiffRecord) ∈ rs) ∧
    (∀ vb, lookupKey k a = none → lookupKey k b = some vb →
      ∃ rs, Comparer.compare skip a b pre = Except.ok rs ∧
        (⟨pathJoin pre k, "n/a", typeLabel vb⟩ : DiffRecord) ∈ rs) :=
  ⟨⟨fun _ => rfl, fun _ => rfl, fun _ => rfl⟩,
   fun va hla hlb => one_sided_a_record hwa hwb hla hlb,
   fun vb hla hlb => one_sided_b_record hwa hwb hla hlb⟩

theorem claim_c2_witness :
    ∃ rs, Comparer.compare (fun _ => false) [("x", JValue.int 3)] [] ""
      = Except.ok rs ∧
      (⟨pathJoin "" "x", typeLabel (JValue.int 3), "n/a"⟩ : DiffRecord) ∈ rs :=
  (@claim_c2 (fun _ => false) [("x", JValue.int 3)] [] "" "x"
    rfl rfl).2.1 (JValue.int 3) rfl rfl

/-- C3 as stated is false: a one-sided child is reported before the skip
checker is consulted, so a record can be emitted at a matcher-matched
path.  With the matcher compiled from `.git`, comparing
`{d: {.git: 5}}` against `{d: {}}` emits the record `(d/.git, file, n/a)`
although `d/.git` matches the matcher. -/
theorem claim_c3_counterexample :
    Comparer.compare (get_skip_checker [".git"]) [("d", JValue.obj [(".git", JValue.int 5)])]
      [("d", JValue.obj [])] "" = Except.ok [⟨"d/.git", "file", "n/a"⟩] ∧
    get_skip_checker [".git"] "d/.git" = true :=
  ⟨rfl, rfl⟩

/-- C3 (amended): every DiffRecord whose path the matcher matches is
one-sided (its left or right column is `n/a`); for a child present in
both trees at a matched path nothing is reported and the subtree is never
descended into — removing the matched child from both sides leaves the
report unchanged. -/
theorem claim_c3 {skip : String → Bool} :
    (∀ (a b : Entries) (pre : String) (rs : List DiffRecord),
        Comparer.compare skip a b pre = Except.ok rs →
        ∀ r ∈ rs, skip r.path = true → r.left = "n/a" ∨ r.right = "n/a") ∧
    (∀ (a b : Entries) (pre k : String),
        (lookupKey k a).isSome = true → (lookupKey k b).isSome = true →
        skip (pathJoin pre k) = true →
        Comparer.compare skip a b pre
          = Comparer.compare skip (removeKey k a) (removeKey k b) pre) := by
  constructor
  · intro a b pre rs h r hr hskip
    rw [Comparer.compare] at h
    exact compareF_skip_na _ h r hr hskip
  · intro a b pre k hsa hsb hs
    exact compare_erase_skipped hsa hsb hs

theorem claim_c3_witness :
    Comparer.compare (fun _ => true) [("g", JValue.int 1)] [("g", JValue.int 2)] ""
      = Comparer.compare (fun _ => true) (removeKey "g" [("g", JValue.int 1)])
        (removeKey "g" [("g", JValue.int 2)]) "" :=
  (@claim_c3 (fun _ => true)).2 [("g", JValue.int 1)] [("g", JValue.int 2)]
    "" "g" rfl rfl rfl

/-- C4: the children are processed by iterating the sorted (lexicographic,
duplicate-free) union of the child names of both sides — that list is
sorted, has no duplicates and contains exactly the names of either side —
and the report depends only on the key-to-value mappings, so permuting the
entry lists (any discovery order) leaves the full DiffRecord sequence
unchanged. -/
theorem claim_c4 :
    (∀ a b : Entries, List.Sorted (fun s t => strLe s t = true) (sortedUnion a b)
        ∧ (sortedUnion a b).Nodup) ∧
    (∀ (a b : Entries) (k : String), k ∈ sortedUnion a b ↔ k ∈ keysOf a ∨ k ∈ keysOf b) ∧
    (∀ (skip : String → Bool) (a a' b b' : Entries) (pre : String),
        a.Perm a' → b.Perm b' → (keysOf a).Nodup → (keysOf b).Nodup →
        Comparer.compare skip a b pre = Comparer.compare skip a' b' pre) :=
  ⟨fun a b => ⟨sorted_sortedUnion a b, nodup_sortedUnion a b⟩,
   fun _ _ _ => mem_sortedUnion,
   fun _ _ _ _ _ _ hpa hpb hna hnb => compare_perm hpa hpb hna hnb⟩

theorem claim_c4_witness :
    Comparer.compare (fun _ => false) [("a", JValue.int 1), ("b", JValue.int 2)]
      [("c", JValue.int 3)] ""
      = Comparer.compare (fun _ => false) [("b", JValue.int 2), ("a", JValue.int 1)]
        [("c", JValue.int 3)] "" :=
  claim_c4.2.2 (fun _ => false) _ _ _ _ ""
    (List.Perm.swap ("b", JValue.int 2) ("a", JValue.int 1) [])
    (List.Perm.refl _) (by decide) (by decide)

/-- C5: a child mapped to an integer in both trees, at a path the matcher
does not match, contributes a DiffRecord exactly when the two integers
differ, formatted as the decimal size followed by `b`; in particular the
spec's example documents compare to exactly one record
`(root/f2.txt, 3b, 4b)`. -/
theorem claim_c5 {skip : String → Bool} {a b : Entries} {pre k : String} {x y : Int}
    (hwa : wfEntries a = true) (hwb : wfEntries b = true)
    (hla : lookupKey k a = some (JValue.int x))
    (hlb : lookupKey k b = some (JValue.int y))
    (hs : skip (pathJoin pre k) = false) :
    (∃ rs₁ rs₂, Comparer.compare skip a b pre = Except.ok (rs₁ ++
        (if x = y then []
         else [⟨pathJoin pre k, toString x ++ "b", toString y ++ "b"⟩]) ++ rs₂)) ∧
    (¬x = y → ∃ rs, Comparer.compare skip a b pre = Except.ok rs ∧
        (⟨pathJoin pre k, toString x ++ "b", toString y ++ "b"⟩ : DiffRecord) ∈ rs) ∧
    compareTop (get_skip_checker [])
      (JValue.obj [("root", JValue.obj [("d1", JValue.obj [("f1.txt", JValue.int 5)]),
        ("f2.txt", JValue.int 3)])])
      (JValue.obj [("root", JValue.obj [("d1", JValue.obj [("f1.txt", JValue.int 5)]),
        ("f2.txt", JValue.int 4)])])
      = Except.ok [⟨"root/f2.txt", "3b", "4b"⟩] := by
  refine ⟨int_pair_block hwa hwb hla hlb hs, ?_, rfl⟩
  intro hxy
  obtain ⟨rs₁, rs₂, hc⟩ := int_pair_block hwa hwb hla hlb hs
  refine ⟨_, hc, ?_⟩
  simp [hxy]

theorem claim_c5_witness :
    ∃ rs, Comparer.compare (fun _ => false) [("f", JValue.int 3)] [("f", JValue.int 4)] ""
      = Except.ok rs ∧
      (⟨pathJoin "" "f", toString (3 : Int) ++ "b", toString (4 : Int) ++ "b"⟩ : DiffRecord) ∈ rs :=
  (@claim_c5 (fun _ => false) [("f", JValue.int 3)] [("f", JValue.int 4)] "" "f" 3 4
    rfl rfl rfl rfl rfl).2.1 (by decide)

/-- C6 as stated is false: `json.load` accepts any JSON document, and a
value kind outside object/integer/string is only rejected later, by the
`ValueError` that `_item_type` raises during the comparison pass itself —
here on a pair of successfully parsed documents containing an array. -/
theorem claim_c6_counterexample :
    compareTop (fun _ => false) (JValue.obj [("root", JValue.arr [])])
      (JValue.obj [("root", JValue.arr [])]) = Except.error () := rfl

/-- C6 (amended): parsing accepts any JSON value kind; it is the
comparison pass that raises `ValueError` on unsupported kinds, and on
well-formed documents (objects, integers, strings only) the comparison
raises no error. -/
theorem claim_c6 {skip : String → Bool} {a b : Entries} {pre : String}
    (hwa : wfEntries a = true) (hwb : wfEntries b = true) :
    (∃ rs, Comparer.compare skip a b pre = Except.ok rs) ∧
    (∃ rs, compareTop skip (JValue.obj a) (JValue.obj b) = Except.ok rs) :=
  ⟨compare_ok hwa hwb, compare_ok hwa hwb⟩

theorem claim_c6_witness :
    (∃ rs, Comparer.compare (fun _ => false) [("r", JValue.str "symlink")]
      [("r", JValue.int 5)] "" = Except.ok rs) ∧
    (∃ rs, compareTop (fun _ => false) (JValue.obj [("r", JValue.str "symlink")])
      (JValue.obj [("r", JValue.int 5)]) = Except.ok rs) :=
  claim_c6 rfl rfl

/-- C7 as stated is false: the compiled patterns support `fnmatch`
character classes, which the claimed `*`/`?`-only glob semantics treats as
literal characters: the pattern list `[a]` matches the path `x/a` under
the implementation but not under the claimed semantics. -/
theorem claim_c7_counterexample :
    get_skip_checker ["[a]"] "x/a" = true ∧ specMatcher ["[a]"] "x/a" = false :=
  ⟨rfl, rfl⟩

/-- C7 (amended): the matcher returns true iff at least one listed
pattern, after the `*/` normalization, matches the entire path; the empty
pattern list matches nothing; and on patterns containing no `[` (hence no
character class) the claimed case-insensitive `*`/`?` glob semantics is
exactly right. -/
theorem claim_c7 :
    (∀ path, get_skip_checker [] path = false) ∧
    (∀ (ps : List String) (path : String),
        get_skip_checker ps path = ps.any (fun p => patMatch (normalizePattern p) path)) ∧
    (∀ (ps : List String) (path : String), (∀ p ∈ ps, '[' ∈ p.data → False) →
        get_skip_checker ps path = specMatcher ps path) :=
  ⟨fun _ => rfl, fun ps path => any_dedup _ _, fun _ _ h => skipChecker_eq_spec h⟩

theorem claim_c7_witness :
    get_skip_checker ["tmp", "*x"] "a/tmp" = specMatcher ["tmp", "*x"] "a/tmp" :=
  claim_c7.2.2 ["tmp", "*x"] "a/tmp" (by decide)

/-- C8: with an active, exhausted depth bound (remaining depth ≤ 0) every
directory entry is emitted as an `unlisted dir` marker — independently of
its contents, readability and the skip checker — and the whole scan of a
readable directory renders every entry shallowly; scanning with depth 0 a
root with one subdirectory of files yields a document with that
subdirectory as the marker and none of its children. -/
theorem claim_c8 {md : Option Int} (h : depthDone md = true) :
    (∀ (skip : String → Bool) (indent : String)
        (recur : Bool → List (String × FSNode) → String → String → Option Int → String)
        (dirPath pre n : String) (r : Bool) (sub : List (String × FSNode)),
        scanEntryStep skip indent recur dirPath pre md (n, FSNode.dir r sub)
          = some (jsonStr n ++ ":\"unlisted dir\"")) ∧
    (∀ (skip : String → Bool) (indent dirPath pre : String)
        (entries : List (String × FSNode)),
        Scanner.scan skip indent true entries dirPath pre md
          = "\x7b" ++ joinItems pre (entries.map shallowStep) true ++ "\x7d") ∧
    Scanner.scanDoc (fun _ => false) "root" true
      [("d1", FSNode.dir true [("f1", FSNode.file 5), ("f2", FSNode.file 7)])] (some 0)
      = "\x7b\"root\":\x7b\n\"d1\":\"unlisted dir\"\x7d\x7d" := by
  refine ⟨?_, ?_, rfl⟩
  · intro skip indent recur dirPath pre n r sub
    simp [scanEntryStep, h]
  · intro skip indent dirPath pre entries
    exact scan_depthDone h

theorem claim_c8_witness :
    Scanner.scan (fun _ => true) " " true [("d", FSNode.dir true [("x", FSNode.file 1)])]
      "root" "" (some 0)
      = "\x7b" ++ joinItems ""
          ([("d", FSNode.dir true [("x", FSNode.file 1)])].map shallowStep) true ++ "\x7d" :=
  (@claim_c8 (some 0) rfl).2.1 (fun _ => true) " " "root" ""
    [("d", FSNode.dir true [("x", FSNode.file 1)])]

/-- C9 (implicit): with `--relative`, the destructuring of each document's
top-level object demands exactly one key: a top-level object with zero
keys or more than one key makes the compare operation raise before any
comparison, rather than silently selecting an arbitrary key. -/
theorem claim_c9 {skip : String → Bool} :
    (∀ (tb : JValue) (ka : Entries), ¬ka.length = 1 →
        compareMain true skip (JValue.obj ka) tb = Except.error ()) ∧
    (∀ (k : String) (va : JValue) (kb : Entries), ¬kb.length = 1 →
        compareMain true skip (JValue.obj [(k, va)]) (JValue.obj kb)
          = Except.error ()) := by
  constructor
  · intro tb ka h
    match ka with
    | [] => rfl
    | [(k₁, v₁)] => exact absurd rfl h
    | (k₁, v₁) :: (k₂, v₂) :: rest => rfl
  · intro k va kb h
    match kb with
    | [] => rfl
    | [(k₁, v₁)] => exact absurd rfl h
    | (k₁, v₁) :: (k₂, v₂) :: rest => rfl

theorem claim_c9_witness :
    compareMain true (fun _ => false)
      (JValue.obj [("r1", JValue.int 1), ("r2", JValue.int 2)])
      (JValue.obj [("q", JValue.int 3)]) = Except.error () :=
  (@claim_c9 (fun _ => false)).1 (JValue.obj [("q", JValue.int 3)]) _ (by decide)

/-- C10 (implicit): the scan-side skip matcher is consulted only for
directory entries: a regular file or symlink is always emitted normally —
its item text does not depend on the matcher, a listing without
subdirectories scans identically under any two matchers, and even the
match-everything matcher `*` leaves files and symlinks intact (while a
directory in the same listing becomes a `skipped dir` marker). -/
theorem claim_c10 :
    (∀ (skip : String → Bool) (indent : String)
        (recur : Bool → List (String × FSNode) → String → String → Option Int → String)
        (dirPath pre : String) (md : Option Int) (n : String) (sz : Nat),
        scanEntryStep skip indent recur dirPath pre md (n, FSNode.file sz)
          = some (jsonStr n ++ ":" ++ toString sz)) ∧
    (∀ (skip : String → Bool) (indent : String)
        (recur : Bool → List (String × FSNode) → String → String → Option Int → String)
        (dirPath pre : String) (md : Option Int) (n : String),
        scanEntryStep skip indent recur dirPath pre md (n, FSNode.symlink)
          = some (jsonStr n ++ ":\"symlink\"")) ∧
    (∀ (s₁ s₂ : String → Bool) (indent dirPath pre : String) (md : Option Int)
        (readable : Bool) (entries : List (String × FSNode)),
        noDirEntries entries = true →
        Scanner.scan s₁ indent readable entries dirPath pre md
          = Scanner.scan s₂ indent readable entries dirPath pre md) ∧
    Scanner.scanDoc (get_skip_checker ["*"]) "root" true
      [("f", FSNode.file 3), ("s", FSNode.symlink), ("d", FSNode.dir true [])] none
      = "\x7b\"root\":\x7b\n\"f\":3,\n\"s\":\"symlink\",\n\"d\":\"skipped dir\"\x7d\x7d" :=
  ⟨fun _ _ _ _ _ _ _ _ => rfl, fun _ _ _ _ _ _ _ => rfl,
   fun s₁ s₂ _ _ _ _ _ _ h => scan_noDirs h s₁ s₂, rfl⟩

theorem claim_c10_witness :
    Scanner.scan (get_skip_checker ["*"]) " " true [("f", FSNode.file 3)] "root" "" none
      = Scanner.scan (fun _ => false) " " true [("f", FSNode.file 3)] "root" "" none :=
  claim_c10.2.2.1 (get_skip_checker ["*"]) (fun _ => false) " " "root" "" none true
    [("f", FSNode.file 3)] rfl
